import Mathlib

/-!
Verification of the AeroVision `MotorController` motion core
(`src/motor_controller.py`) together with the `_home` reset of
`src/manual_gui.py`.

Millimeter quantities and calibration factors are modelled as rationals
(the Python source computes on floats; the spec's properties are stated in
exact arithmetic).  Python's `round` (round-half-to-even) is modelled by
`pyRound`.  A run of a move method is modelled as the final controller
state together with the ordered trace of emitted events: one `Event.step`
per `_step_motor` call (tagged with whether it reached physical hardware)
and one `Event.delay` per `time.sleep(self.step_delay)` in
`_step_multiple`.  The unbounded `while` loop of `move_to` is modelled by
the fuel-indexed `bresRun`; `x_steps + z_steps` fuel is enough, which is
exactly the termination fact proved below.
-/

namespace MotorCtl

/-- Direction flags (`Stepper.FORWARD` / `Stepper.BACKWARD`). -/
inductive Dir where
  | forward
  | backward
deriving DecidableEq

/-- The three configured motor names (`x_left`, `x_right`, `z_axis`). -/
inductive MotorName where
  | x_left
  | x_right
  | z_axis
deriving DecidableEq

/-- Observable events emitted by a move: one `step` per `_step_motor` call
(`physical = true` when a real stepper channel is driven, `false` for the
stub branch that merely logs) and one `delay` per `time.sleep` in
`_step_multiple`. -/
inductive Event where
  | step (motor : MotorName) (dir : Dir) (physical : Bool)
  | delay (d : ℚ)
deriving DecidableEq

/-- Logical position in millimeters (`self.position`). -/
structure Position where
  x : ℚ
  z : ℚ
deriving DecidableEq

/-- State of a constructed `MotorController`: calibration, pacing delay,
hardware-presence flag (`REAL_HARDWARE`), the name-to-channel binding
(`self.steppers`, `bound n = true` iff `self.steppers[n]` holds a real
channel object), and the logical position. -/
structure MotorController where
  steps_per_mm_x : ℚ
  steps_per_mm_z : ℚ
  step_delay : ℚ
  realHardware : Bool
  bound : MotorName → Bool
  position : Position

/-- Python's built-in `round` on an exact rational: round to the nearest
integer, ties to the even integer (as used in `int(round(...))`). -/
def pyRound (q : ℚ) : ℤ :=
  if Int.fract q < 1/2 then ⌊q⌋
  else if 1/2 < Int.fract q then ⌊q⌋ + 1
  else if ⌊q⌋ % 2 = 0 then ⌊q⌋ else ⌊q⌋ + 1

/-- `_init_steppers`: a motor name is bound to a real channel iff the
hardware is present and the kit exposes the configured channel attribute;
otherwise the entry is `None` (a no-op simulated channel).  Construction
never fails here. -/
def initSteppers (realHardware : Bool) (hasChannel : MotorName → Bool) :
    MotorName → Bool :=
  fun n => realHardware && hasChannel n

/-- `_step_motor`: drives the bound channel when hardware is present and
the name resolved to a real channel, otherwise logs a stub line. -/
def step_motor (mc : MotorController) (name : MotorName) (dir : Dir) : Event :=
  if mc.realHardware && mc.bound name then Event.step name dir true
  else Event.step name dir false

/-- `_step_multiple`: step each named motor in order, then sleep for
`step_delay`. -/
def step_multiple (mc : MotorController) (names : List MotorName) (dir : Dir) :
    List Event :=
  names.map (fun nm => step_motor mc nm dir) ++ [Event.delay mc.step_delay]

/-- `move_x`: round the millimeter request to steps, bail out on zero,
otherwise emit `abs(steps)` synchronized X groups and add the exact
request to `position.x`. -/
def move_x (mc : MotorController) (mm : ℚ) : MotorController × List Event :=
  let steps := pyRound (mm * mc.steps_per_mm_x)
  if steps = 0 then (mc, [])
  else
    let dir := if steps > 0 then Dir.forward else Dir.backward
    ({ mc with position := { mc.position with x := mc.position.x + mm } },
     (List.replicate steps.natAbs
       (step_multiple mc [MotorName.x_left, MotorName.x_right] dir)).flatten)

/-- `move_z`: same as `move_x` for the single Z motor. -/
def move_z (mc : MotorController) (mm : ℚ) : MotorController × List Event :=
  let steps := pyRound (mm * mc.steps_per_mm_z)
  if steps = 0 then (mc, [])
  else
    let dir := if steps > 0 then Dir.forward else Dir.backward
    ({ mc with position := { mc.position with z := mc.position.z + mm } },
     (List.replicate steps.natAbs
       (step_multiple mc [MotorName.z_axis] dir)).flatten)

/-- One iteration of the `while` body of `move_to`: `e2 = err * 2` is
computed once; the X branch fires when `x < x_steps and e2 > -z_steps`,
the Z branch when `z < z_steps and e2 < x_steps` (both reading the same
`e2`), and the updates compose. -/
def bresIter (mc : MotorController) (sx sz : Dir) (X Z : ℕ) (err : ℤ)
    (x z : ℕ) : List Event × ℤ × ℕ × ℕ :=
  if x < X ∧ err * 2 > -(Z : ℤ) then
    if z < Z ∧ err * 2 < (X : ℤ) then
      (step_multiple mc [MotorName.x_left, MotorName.x_right] sx ++
         step_multiple mc [MotorName.z_axis] sz,
       err - Z + X, x + 1, z + 1)
    else
      (step_multiple mc [MotorName.x_left, MotorName.x_right] sx,
       err - Z, x + 1, z)
  else
    if z < Z ∧ err * 2 < (X : ℤ) then
      (step_multiple mc [MotorName.z_axis] sz, err + X, x, z + 1)
    else
      ([], err, x, z)

/-- The `while x < x_steps or z < z_steps` loop of `move_to`, indexed by
fuel.  Returns the emitted trace together with the final `err`, `x`, `z`.
`bresRun_reaches_targets` below shows that `X + Z` fuel always suffices to
drive both counters to their targets, so the fuel model agrees with the
source's unbounded loop. -/
def bresRun (mc : MotorController) (sx sz : Dir) (X Z : ℕ) :
    ℕ → ℤ → ℕ → ℕ → List Event × ℤ × ℕ × ℕ
  | 0, err, x, z => ([], err, x, z)
  | fuel + 1, err, x, z =>
    if x < X ∨ z < Z then
      ((bresIter mc sx sz X Z err x z).1 ++
         (bresRun mc sx sz X Z fuel (bresIter mc sx sz X Z err x z).2.1
           (bresIter mc sx sz X Z err x z).2.2.1
           (bresIter mc sx sz X Z err x z).2.2.2).1,
       (bresRun mc sx sz X Z fuel (bresIter mc sx sz X Z err x z).2.1
         (bresIter mc sx sz X Z err x z).2.2.1
         (bresIter mc sx sz X Z err x z).2.2.2).2)
    else ([], err, x, z)

/-- `move_to`: compute the millimeter deltas from the current position,
convert to signed step counts, derive per-axis directions, interleave with
the Bresenham-style loop (`err` seeded with `x_steps - z_steps`), and
finally assign the exact targets to `position`. -/
def move_to (mc : MotorController) (x_mm z_mm : ℚ) :
    MotorController × List Event :=
  let dx := x_mm - mc.position.x
  let dz := z_mm - mc.position.z
  let xs0 := pyRound (dx * mc.steps_per_mm_x)
  let zs0 := pyRound (dz * mc.steps_per_mm_z)
  let sx := if xs0 > 0 then Dir.forward else Dir.backward
  let sz := if zs0 > 0 then Dir.forward else Dir.backward
  let x_steps := xs0.natAbs
  let z_steps := zs0.natAbs
  ({ mc with position := { x := x_mm, z := z_mm } },
   (bresRun mc sx sz x_steps z_steps (x_steps + z_steps)
     ((x_steps : ℤ) - (z_steps : ℤ)) 0 0).1)

/-- `ManualControlApp._home` ("Home"): reassign `position` to `{0, 0}`;
no stepper interaction of any kind. -/
def reset_position (mc : MotorController) : MotorController × List Event :=
  ({ mc with position := { x := 0, z := 0 } }, [])

/-- Recognize the `_step_motor` event of an X step group (each X group
contains exactly one `x_left` event). -/
def isXStep : Event → Bool
  | Event.step MotorName.x_left _ _ => true
  | _ => false

/-- Recognize the `_step_motor` event of a Z step group. -/
def isZStep : Event → Bool
  | Event.step MotorName.z_axis _ _ => true
  | _ => false

/-- Recognize any `_step_motor` call (driver call), physical or stub. -/
def isDriverStep : Event → Bool
  | Event.step _ _ _ => true
  | Event.delay _ => false

/-- Recognize a `_step_motor` call that drove real hardware. -/
def isPhysicalStep : Event → Bool
  | Event.step _ _ physical => physical
  | Event.delay _ => false

/-- Number of emitted X step groups in a trace. -/
def countXGroups (t : List Event) : ℕ := t.countP isXStep

/-- Number of emitted Z step groups in a trace. -/
def countZGroups (t : List Event) : ℕ := t.countP isZStep

/-- Number of driver calls (`_step_motor` invocations) in a trace. -/
def driverCalls (t : List Event) : ℕ := t.countP isDriverStep

/-- Number of driver calls that reached physical hardware. -/
def physicalSteps (t : List Event) : ℕ := t.countP isPhysicalStep

/-- Floor of a negation when the argument is an integer. -/
theorem floor_neg_of_fract_zero {q : ℚ} (h : Int.fract q = 0) : ⌊-q⌋ = -⌊q⌋ := by
  have hn : Int.fract (-q) = 0 := Int.fract_neg_eq_zero.mpr h
  have e1 : ((⌊-q⌋ : ℤ) : ℚ) = -q - Int.fract (-q) := (Int.self_sub_fract (-q)).symm
  have e2 : ((⌊q⌋ : ℤ) : ℚ) = q - Int.fract q := (Int.self_sub_fract q).symm
  have key : ((⌊-q⌋ : ℤ) : ℚ) = ((-⌊q⌋ : ℤ) : ℚ) := by
    push_cast
    rw [e1, hn]
    rw [e2] at *
    linarith [e2, h]
  exact_mod_cast key

/-- Floor of a negation when the argument is not an integer. -/
theorem floor_neg_of_fract_ne {q : ℚ} (h : Int.fract q ≠ 0) : ⌊-q⌋ = -⌊q⌋ - 1 := by
  have hn : Int.fract (-q) = 1 - Int.fract q := Int.fract_neg h
  have e1 : ((⌊-q⌋ : ℤ) : ℚ) = -q - Int.fract (-q) := (Int.self_sub_fract (-q)).symm
  have e2 : ((⌊q⌋ : ℤ) : ℚ) = q - Int.fract q := (Int.self_sub_fract q).symm
  have key : ((⌊-q⌋ : ℤ) : ℚ) = ((-⌊q⌋ - 1 : ℤ) : ℚ) := by
    push_cast
    rw [e1, hn]
    linarith [e2]
  exact_mod_cast key

/-- Round-half-to-even is an odd function, as Python's `round` is. -/
theorem pyRound_neg (q : ℚ) : pyRound (-q) = -pyRound q := by
  rcases eq_or_ne (Int.fract q) 0 with h0 | h0
  · have hn : Int.fract (-q) = 0 := Int.fract_neg_eq_zero.mpr h0
    have hf : ⌊-q⌋ = -⌊q⌋ := floor_neg_of_fract_zero h0
    simp only [pyRound, hn, h0, hf]
    norm_num
  · have hn : Int.fract (-q) = 1 - Int.fract q := Int.fract_neg h0
    have hf : ⌊-q⌋ = -⌊q⌋ - 1 := floor_neg_of_fract_ne h0
    have hpos : 0 < Int.fract q := (Int.fract_nonneg q).lt_of_ne (Ne.symm h0)
    have hlt1 : Int.fract q < 1 := Int.fract_lt_one q
    simp only [pyRound, hn, hf]
    split_ifs <;> first | omega | (exfalso; linarith)

/-- Rounding an exact zero yields zero steps. -/
theorem pyRound_zero : pyRound 0 = 0 := by
  norm_num [pyRound, Int.fract]

/-- `_step_motor` always emits exactly one step event for the named motor;
the event is physical iff the hardware is present and the name is bound. -/
theorem step_motor_eq (mc : MotorController) (n : MotorName) (d : Dir) :
    step_motor mc n d = Event.step n d (mc.realHardware && mc.bound n) := by
  unfold step_motor
  cases h : (mc.realHardware && mc.bound n) <;> simp [h]

theorem countX_xgroup (mc : MotorController) (sx : Dir) :
    countXGroups (step_multiple mc [MotorName.x_left, MotorName.x_right] sx) = 1 := by
  simp [countXGroups, step_multiple, step_motor_eq, isXStep]

theorem countZ_xgroup (mc : MotorController) (sx : Dir) :
    countZGroups (step_multiple mc [MotorName.x_left, MotorName.x_right] sx) = 0 := by
  simp [countZGroups, step_multiple, step_motor_eq, isZStep]

theorem countX_zgroup (mc : MotorController) (sz : Dir) :
    countXGroups (step_multiple mc [MotorName.z_axis] sz) = 0 := by
  simp [countXGroups, step_multiple, step_motor_eq, isXStep]

theorem countZ_zgroup (mc : MotorController) (sz : Dir) :
    countZGroups (step_multiple mc [MotorName.z_axis] sz) = 1 := by
  simp [countZGroups, step_multiple, step_motor_eq, isZStep]

theorem driver_xgroup (mc : MotorController) (sx : Dir) :
    driverCalls (step_multiple mc [MotorName.x_left, MotorName.x_right] sx) = 2 := by
  simp [driverCalls, step_multiple, step_motor_eq, isDriverStep]

theorem driver_zgroup (mc : MotorController) (sz : Dir) :
    driverCalls (step_multiple mc [MotorName.z_axis] sz) = 1 := by
  simp [driverCalls, step_multiple, step_motor_eq, isDriverStep]

/-- A Z step group issued while `z_axis` is unbound never touches hardware. -/
theorem physical_zgroup_unbound (mc : MotorController) (sz : Dir)
    (hb : mc.bound MotorName.z_axis = false) :
    physicalSteps (step_multiple mc [MotorName.z_axis] sz) = 0 := by
  simp [physicalSteps, step_multiple, step_motor_eq, isPhysicalStep, hb]

theorem countP_flatten_replicate (p : Event → Bool) (n : ℕ) (l : List Event) :
    ((List.replicate n l).flatten.countP p) = n * l.countP p := by
  induction n with
  | zero => simp
  | succ k ih =>
    simp only [List.replicate_succ, List.flatten_cons, List.countP_append, ih,
      Nat.succ_mul]
    omega

theorem countXGroups_append (a b : List Event) :
    countXGroups (a ++ b) = countXGroups a + countXGroups b :=
  List.countP_append _ _ _

theorem countZGroups_append (a b : List Event) :
    countZGroups (a ++ b) = countZGroups a + countZGroups b :=
  List.countP_append _ _ _

/-- Value of the Bresenham error accumulator of `move_to` after `x` X step
groups and `z` Z step groups have fired, starting from `x_steps - z_steps`:
every X branch subtracts `z_steps`, every Z branch adds `x_steps`. -/
def errInv (X Z x z : ℕ) : ℤ :=
  (X : ℤ) - (Z : ℤ) - (x : ℤ) * (Z : ℤ) + (z : ℤ) * (X : ℤ)

/-- Progress: while the loop condition holds and the accumulator has its
invariant value, at least one of the two branch guards fires, so every
iteration advances `x + z`. -/
theorem bres_progress (X Z x z : ℕ) (hx : x ≤ X) (hz : z ≤ Z)
    (hcond : x < X ∨ z < Z) :
    (x < X ∧ errInv X Z x z * 2 > -(Z : ℤ)) ∨
    (z < Z ∧ errInv X Z x z * 2 < (X : ℤ)) := by
  by_contra hcon
  push_neg at hcon
  obtain ⟨h1, h2⟩ := hcon
  rcases hcond with hxX | hzZ
  · have e1 := h1 hxX
    by_cases hzz : z < Z
    · have e2 := h2 hzz
      have hZ1 : (1 : ℤ) ≤ (Z : ℤ) := by exact_mod_cast Nat.one_le_iff_ne_zero.mpr (by omega)
      have hX0 : (0 : ℤ) ≤ (X : ℤ) := Int.natCast_nonneg X
      linarith
    · have hzZ : z = Z := le_antisymm hz (not_lt.mp hzz)
      subst hzZ
      have hc : ((x : ℤ) + 1) ≤ (X : ℤ) := by exact_mod_cast hxX
      have hZ0 : (0 : ℤ) ≤ (z : ℤ) := Int.natCast_nonneg z
      have key : (0 : ℤ) ≤ (z : ℤ) * ((X : ℤ) - (x : ℤ) - 1) :=
        mul_nonneg hZ0 (by linarith)
      unfold errInv at e1
      nlinarith [e1, key, hc, hZ0]
  · have e2 := h2 hzZ
    by_cases hxx : x < X
    · have e1 := h1 hxx
      have hZ1 : (1 : ℤ) ≤ (Z : ℤ) := by exact_mod_cast Nat.one_le_iff_ne_zero.mpr (by omega)
      have hX0 : (0 : ℤ) ≤ (X : ℤ) := Int.natCast_nonneg X
      linarith
    · have hxX : x = X := le_antisymm hx (not_lt.mp hxx)
      subst hxX
      have hc : ((z : ℤ) + 1) ≤ (Z : ℤ) := by exact_mod_cast hzZ
      have hX0 : (0 : ℤ) ≤ (x : ℤ) := Int.natCast_nonneg x
      have key : (0 : ℤ) ≤ (x : ℤ) * ((Z : ℤ) - (z : ℤ) - 1) :=
        mul_nonneg hX0 (by linarith)
      unfold errInv at e2
      nlinarith [e2, key, hc, hX0]

/-- Main loop invariant of `move_to`: starting from counters `x ≤ X`,
`z ≤ Z` with the invariant accumulator value and at least
`(X - x) + (Z - z)` fuel, the loop emits exactly the outstanding numbers
of X and Z step groups and drives both counters to their targets. -/
theorem bresRun_spec (mc : MotorController) (sx sz : Dir) (X Z : ℕ) :
    ∀ fuel x z, x ≤ X → z ≤ Z → (X - x) + (Z - z) ≤ fuel →
      countXGroups (bresRun mc sx sz X Z fuel (errInv X Z x z) x z).1 = X - x ∧
      countZGroups (bresRun mc sx sz X Z fuel (errInv X Z x z) x z).1 = Z - z ∧
      (bresRun mc sx sz X Z fuel (errInv X Z x z) x z).2.2.1 = X ∧
      (bresRun mc sx sz X Z fuel (errInv X Z x z) x z).2.2.2 = Z := by
  intro fuel
  induction fuel with
  | zero =>
    intro x z hx hz hm
    have hx' : x = X := by omega
    have hz' : z = Z := by omega
    subst hx'
    subst hz'
    simp [bresRun, countXGroups, countZGroups]
  | succ fuel ih =>
    intro x z hx hz hm
    by_cases hcond : x < X ∨ z < Z
    · have hprog := bres_progress X Z x z hx hz hcond
      by_cases hdX : x < X ∧ errInv X Z x z * 2 > -(Z : ℤ)
      · by_cases hdZ : z < Z ∧ errInv X Z x z * 2 < (X : ℤ)
        · have hiter : bresIter mc sx sz X Z (errInv X Z x z) x z =
              (step_multiple mc [MotorName.x_left, MotorName.x_right] sx ++
                 step_multiple mc [MotorName.z_axis] sz,
               errInv X Z (x + 1) (z + 1), x + 1, z + 1) := by
            have herr : errInv X Z x z - (Z : ℤ) + (X : ℤ) =
                errInv X Z (x + 1) (z + 1) := by
              unfold errInv
              push_cast
              ring
            simp only [bresIter, if_pos hdX, if_pos hdZ]
            rw [herr]
          have ihx := ih (x + 1) (z + 1) (by omega) (by omega) (by omega)
          simp only [bresRun, if_pos hcond, hiter]
          rw [countXGroups_append, countXGroups_append, countZGroups_append,
            countZGroups_append, countX_xgroup, countX_zgroup, countZ_xgroup,
            countZ_zgroup]
          have hcx := ihx.1
          have hcz := ihx.2.1
          exact ⟨by omega, by omega, ihx.2.2.1, ihx.2.2.2⟩
        · have hiter : bresIter mc sx sz X Z (errInv X Z x z) x z =
              (step_multiple mc [MotorName.x_left, MotorName.x_right] sx,
               errInv X Z (x + 1) z, x + 1, z) := by
            have herr : errInv X Z x z - (Z : ℤ) = errInv X Z (x + 1) z := by
              unfold errInv
              push_cast
              ring
            simp only [bresIter, if_pos hdX, if_neg hdZ]
            rw [herr]
          have ihx := ih (x + 1) z (by omega) hz (by omega)
          simp only [bresRun, if_pos hcond, hiter]
          rw [countXGroups_append, countZGroups_append, countX_xgroup,
            countZ_xgroup]
          have hcx := ihx.1
          have hcz := ihx.2.1
          exact ⟨by omega, by omega, ihx.2.2.1, ihx.2.2.2⟩
      · have hdZ : z < Z ∧ errInv X Z x z * 2 < (X : ℤ) := by tauto
        have hiter : bresIter mc sx sz X Z (errInv X Z x z) x z =
            (step_multiple mc [MotorName.z_axis] sz,
             errInv X Z x (z + 1), x, z + 1) := by
          have herr : errInv X Z x z + (X : ℤ) = errInv X Z x (z + 1) := by
            unfold errInv
            push_cast
            ring
          simp only [bresIter, if_neg hdX, if_pos hdZ]
          rw [herr]
        have ihx := ih x (z + 1) hx (by omega) (by omega)
        simp only [bresRun, if_pos hcond, hiter]
        rw [countXGroups_append, countZGroups_append, countX_zgroup,
          countZ_zgroup]
        have hcx := ihx.1
        have hcz := ihx.2.1
        exact ⟨by omega, by omega, ihx.2.2.1, ihx.2.2.2⟩
    · push_neg at hcond
      obtain ⟨hxx, hzz⟩ := hcond
      have hx' : x = X := by omega
      have hz' : z = Z := by omega
      subst hx'
      subst hz'
      simp [bresRun, countXGroups, countZGroups]

/-- Rounding an exact one yields one step. -/
theorem pyRound_one : pyRound 1 = 1 := by
  norm_num [pyRound, Int.fract]

/-- Total driver calls of `move_x`: two per step group (the two ganged X
motors), `abs(steps)` groups. -/
theorem driverCalls_move_x (mc : MotorController) (mm : ℚ) :
    driverCalls (move_x mc mm).2 =
      2 * (pyRound (mm * mc.steps_per_mm_x)).natAbs := by
  by_cases h : pyRound (mm * mc.steps_per_mm_x) = 0
  · simp [move_x, h, driverCalls]
  · simp only [move_x, if_neg h]
    unfold driverCalls
    rw [countP_flatten_replicate]
    have hg := driver_xgroup mc (if pyRound (mm * mc.steps_per_mm_x) > 0
      then Dir.forward else Dir.backward)
    unfold driverCalls at hg
    rw [hg, Nat.mul_comm]

/-! ### A driver model with per-call outcomes, for the step-failure claim

The Python `_step_motor` never inspects the outcome of
`stepper_obj.onestep(...)`: the source contains no try/except, no retry
and no early abort, so a failing physical call changes nothing in the
control flow.  To state that as a theorem rather than by fiat, the
fallible model below re-runs `move_x` while threading an arbitrary
failure oracle (`failAt k` = the `k`-th physical call of the move fails)
into the emitted events, exactly mirroring the source loop; the claim is
then that its command sequence and final state coincide with the nominal
run for every oracle. -/

/-- Events of the fallible-driver model: as `Event`, plus the outcome of
the underlying call (`ok = false` for a failed physical call; stub calls
always succeed). -/
inductive EventF where
  | step (motor : MotorName) (dir : Dir) (physical : Bool) (ok : Bool)
  | delay (d : ℚ)
deriving DecidableEq

/-- `_step_motor` under the failure oracle: the `k`-th call of the move
fails iff it is physical and `failAt k`; the outcome is recorded in the
event and (faithful to the source) never branched on. -/
def step_motor_f (mc : MotorController) (failAt : ℕ → Bool) (k : ℕ)
    (name : MotorName) (dir : Dir) : EventF :=
  if mc.realHardware && mc.bound name then EventF.step name dir true (!failAt k)
  else EventF.step name dir false true

/-- `move_x` under the failure oracle: identical control flow; the `i`-th
step group issues driver calls number `2*i` and `2*i + 1`. -/
def move_x_f (mc : MotorController) (failAt : ℕ → Bool) (mm : ℚ) :
    MotorController × List EventF :=
  let steps := pyRound (mm * mc.steps_per_mm_x)
  if steps = 0 then (mc, [])
  else
    let dir := if steps > 0 then Dir.forward else Dir.backward
    ({ mc with position := { mc.position with x := mc.position.x + mm } },
     ((List.range steps.natAbs).map (fun i =>
        [step_motor_f mc failAt (2 * i) MotorName.x_left dir,
         step_motor_f mc failAt (2 * i + 1) MotorName.x_right dir,
         EventF.delay mc.step_delay])).flatten)

/-- Forget the recorded outcome of an event. -/
def forgetOutcome : EventF → Event
  | EventF.step n d p _ => Event.step n d p
  | EventF.delay d => Event.delay d

/-- Recognize a driver call whose underlying step failed. -/
def isFailedStep : EventF → Bool
  | EventF.step _ _ _ ok => !ok
  | EventF.delay _ => false

/-- Number of failed physical step calls in a fallible trace. -/
def failedSteps (t : List EventF) : ℕ := t.countP isFailedStep

theorem forget_step_motor_f (mc : MotorController) (failAt : ℕ → Bool)
    (k : ℕ) (n : MotorName) (d : Dir) :
    forgetOutcome (step_motor_f mc failAt k n d) = step_motor mc n d := by
  unfold step_motor_f step_motor
  cases h : (mc.realHardware && mc.bound n) <;> simp [h, forgetOutcome]

theorem map_range_const {α : Type} (n : ℕ) (a : α) :
    (List.range n).map (fun _ => a) = List.replicate n a := by
  induction n with
  | zero => simp
  | succ k ih =>
    rw [List.range_succ, List.map_append, ih, List.replicate_succ']
    simp

/-- For every failure oracle, the fallible run of `move_x` issues the very
same command sequence as the nominal run and reaches the same final
state: the source never branches on a step outcome. -/
theorem move_x_f_agrees (mc : MotorController) (failAt : ℕ → Bool) (mm : ℚ) :
    ((move_x_f mc failAt mm).2).map forgetOutcome = (move_x mc mm).2 ∧
    (move_x_f mc failAt mm).1 = (move_x mc mm).1 := by
  by_cases h : pyRound (mm * mc.steps_per_mm_x) = 0
  · simp [move_x_f, move_x, h]
  · constructor
    · simp only [move_x_f, move_x, if_neg h]
      rw [List.map_flatten, List.map_map]
      have hfun : (List.map forgetOutcome ∘ fun i =>
          [step_motor_f mc failAt (2 * i) MotorName.x_left
             (if pyRound (mm * mc.steps_per_mm_x) > 0 then Dir.forward
              else Dir.backward),
           step_motor_f mc failAt (2 * i + 1) MotorName.x_right
             (if pyRound (mm * mc.steps_per_mm_x) > 0 then Dir.forward
              else Dir.backward),
           EventF.delay mc.step_delay]) =
          fun _ : ℕ => step_multiple mc [MotorName.x_left, MotorName.x_right]
            (if pyRound (mm * mc.steps_per_mm_x) > 0 then Dir.forward
             else Dir.backward) := by
        funext i
        simp only [List.map_cons, List.map_nil, Function.comp_apply,
          forget_step_motor_f, step_multiple]
        rfl
      rw [hfun, map_range_const]
    · simp only [move_x_f, move_x, if_neg h]

/-- Total driver calls of `move_z`: one per step group. -/
theorem driverCalls_move_z (mc : MotorController) (mm : ℚ) :
    driverCalls (move_z mc mm).2 =
      (pyRound (mm * mc.steps_per_mm_z)).natAbs := by
  by_cases h : pyRound (mm * mc.steps_per_mm_z) = 0
  · simp [move_z, h, driverCalls]
  · simp only [move_z, if_neg h]
    unfold driverCalls
    rw [countP_flatten_replicate]
    have hg := driver_zgroup mc (if pyRound (mm * mc.steps_per_mm_z) > 0
      then Dir.forward else Dir.backward)
    unfold driverCalls at hg
    rw [hg, Nat.mul_one]

/-- With `z_axis` unbound, no call of `move_z` ever reaches hardware. -/
theorem physicalSteps_move_z_unbound (mc : MotorController) (mm : ℚ)
    (hb : mc.bound MotorName.z_axis = false) :
    physicalSteps (move_z mc mm).2 = 0 := by
  by_cases h : pyRound (mm * mc.steps_per_mm_z) = 0
  · simp [move_z, h, physicalSteps]
  · simp only [move_z, if_neg h]
    unfold physicalSteps
    rw [countP_flatten_replicate]
    have hg := physical_zgroup_unbound mc (if pyRound (mm * mc.steps_per_mm_z) > 0
      then Dir.forward else Dir.backward) hb
    unfold physicalSteps at hg
    rw [hg, Nat.mul_zero]

/-- A fully simulated controller with unit calibration and origin
position, used as the concrete input of several witnesses. -/
def mcSim : MotorController :=
  { steps_per_mm_x := 1, steps_per_mm_z := 1, step_delay := 0,
    realHardware := false, bound := fun _ => false,
    position := { x := 0, z := 0 } }

/-- A hardware-backed controller with every channel bound and unit
calibration, used as the concrete input of the failure witness. -/
def mcHW : MotorController :=
  { steps_per_mm_x := 1, steps_per_mm_z := 1, step_delay := 0,
    realHardware := true, bound := fun _ => true,
    position := { x := 0, z := 0 } }

/-- C1: for every axis, every distance and every calibration with positive
steps-per-millimeter, a `move_axis` call that issues at least one driver
step increases the Position coordinate of that axis by exactly the
requested millimeter value. -/
theorem move_axis_adds_exact_distance (mc : MotorController) (mmx mmz : ℚ)
    (hcalx : 0 < mc.steps_per_mm_x) (hcalz : 0 < mc.steps_per_mm_z)
    (hx : 0 < driverCalls (move_x mc mmx).2)
    (hz : 0 < driverCalls (move_z mc mmz).2) :
    (move_x mc mmx).1.position.x = mc.position.x + mmx ∧
    (move_z mc mmz).1.position.z = mc.position.z + mmz := by
  constructor
  · by_cases h : pyRound (mmx * mc.steps_per_mm_x) = 0
    · simp [move_x, h, driverCalls] at hx
    · simp [move_x, h]
  · by_cases h : pyRound (mmz * mc.steps_per_mm_z) = 0
    · simp [move_z, h, driverCalls] at hz
    · simp [move_z, h]

theorem move_axis_adds_exact_distance_witness :
    (move_x mcSim 1).1.position.x = mcSim.position.x + 1 ∧
    (move_z mcSim 1).1.position.z = mcSim.position.z + 1 :=
  move_axis_adds_exact_distance mcSim 1 1 (by norm_num [mcSim])
    (by norm_num [mcSim])
    (by simp [driverCalls_move_x, mcSim, pyRound_one])
    (by simp [driverCalls_move_z, mcSim, pyRound_one])

/-- C2: `move_to` emits exactly `|round(dx * steps_per_mm_x)|` X step
groups and `|round(dz * steps_per_mm_z)|` Z step groups, and emits nothing
at all when both millimeter deltas are zero. -/
theorem move_to_step_group_counts (mc : MotorController) (x_mm z_mm : ℚ) :
    countXGroups (move_to mc x_mm z_mm).2 =
      (pyRound ((x_mm - mc.position.x) * mc.steps_per_mm_x)).natAbs ∧
    countZGroups (move_to mc x_mm z_mm).2 =
      (pyRound ((z_mm - mc.position.z) * mc.steps_per_mm_z)).natAbs ∧
    (x_mm - mc.position.x = 0 → z_mm - mc.position.z = 0 →
      (move_to mc x_mm z_mm).2 = []) := by
  have key : ∀ (sx sz : Dir) (X Z : ℕ),
      countXGroups (bresRun mc sx sz X Z (X + Z) ((X : ℤ) - (Z : ℤ)) 0 0).1 = X ∧
      countZGroups (bresRun mc sx sz X Z (X + Z) ((X : ℤ) - (Z : ℤ)) 0 0).1 = Z := by
    intro sx sz X Z
    have h0 : ((X : ℤ) - (Z : ℤ)) = errInv X Z 0 0 := by simp [errInv]
    rw [h0]
    have hs := bresRun_spec mc sx sz X Z (X + Z) 0 0 (Nat.zero_le _)
      (Nat.zero_le _) (by omega)
    exact ⟨by simpa using hs.1, by simpa using hs.2.1⟩
  refine ⟨?_, ?_, ?_⟩
  · simp only [move_to]
    exact (key _ _ _ _).1
  · simp only [move_to]
    exact (key _ _ _ _).2
  · intro h1 h2
    simp [move_to, h1, h2, pyRound_zero, bresRun]

theorem move_to_step_group_counts_witness : (move_to mcSim 0 0).2 = [] :=
  (move_to_step_group_counts mcSim 0 0).2.2 (by norm_num [mcSim])
    (by norm_num [mcSim])

/-- C3: after `move_to(x_mm, z_mm)` the Position equals exactly the target
pair: the coordinates are assigned, not accumulated from quantized
increments. -/
theorem move_to_sets_exact_target (mc : MotorController) (x_mm z_mm : ℚ) :
    (move_to mc x_mm z_mm).1.position = { x := x_mm, z := z_mm } := rfl

/-- C4: whenever the rounded step count of an axis move is zero, the call
is a complete no-op: state (hence Position) unchanged and empty trace
(hence zero driver calls and no delay). -/
theorem move_axis_zero_steps_noop (mc : MotorController) (mmx mmz : ℚ)
    (h1 : pyRound (mmx * mc.steps_per_mm_x) = 0)
    (h2 : pyRound (mmz * mc.steps_per_mm_z) = 0) :
    move_x mc mmx = (mc, []) ∧ move_z mc mmz = (mc, []) :=
  ⟨by simp [move_x, h1], by simp [move_z, h2]⟩

theorem move_axis_zero_steps_noop_witness :
    move_x mcSim 0 = (mcSim, []) ∧ move_z mcSim 0 = (mcSim, []) :=
  move_axis_zero_steps_noop mcSim 0 0 (by simp [pyRound_zero])
    (by simp [pyRound_zero])

/-- C5: a `move_axis(X, d)` followed by `move_axis(X, -d)` returns
`Position.x` exactly to its starting value, for every distance and every
starting state. -/
theorem move_x_roundtrip (mc : MotorController) (mm : ℚ) :
    (move_x (move_x mc mm).1 (-mm)).1.position.x = mc.position.x := by
  by_cases h : pyRound (mm * mc.steps_per_mm_x) = 0
  · have h1 : move_x mc mm = (mc, []) := by simp [move_x, h]
    have h2 : pyRound (-(mm * mc.steps_per_mm_x)) = 0 := by
      rw [pyRound_neg, h, neg_zero]
    rw [h1]
    simp [move_x, h2]
  · have h1 : (move_x mc mm).1 =
        { mc with position := { mc.position with x := mc.position.x + mm } } := by
      simp [move_x, h]
    have h2 : pyRound (-(mm * mc.steps_per_mm_x)) ≠ 0 := by
      rw [pyRound_neg, neg_ne_zero]
      exact h
    rw [h1]
    simp [move_x, h2]

/-- C6: a motor whose channel did not resolve is bound to the no-op
simulated channel (construction does not fail); with `z_axis` unbound and
a calibration under which 2 mm rounds to a nonzero step count,
`move_z 2` completes, touches no hardware, and still adds exactly 2 to
`Position.z`. -/
theorem unresolved_channel_degrades_to_stub (mc : MotorController)
    (hasChannel : MotorName → Bool)
    (hb : mc.bound MotorName.z_axis = false)
    (hcal : pyRound (2 * mc.steps_per_mm_z) ≠ 0) :
    initSteppers false hasChannel MotorName.z_axis = false ∧
    physicalSteps (move_z mc 2).2 = 0 ∧
    (move_z mc 2).1.position.z = mc.position.z + 2 :=
  ⟨rfl, physicalSteps_move_z_unbound mc 2 hb, by simp [move_z, hcal]⟩

theorem unresolved_channel_degrades_to_stub_witness :
    initSteppers false (fun _ => false) MotorName.z_axis = false ∧
    physicalSteps (move_z mcSim 2).2 = 0 ∧
    (move_z mcSim 2).1.position.z = mcSim.position.z + 2 :=
  unresolved_channel_degrades_to_stub mcSim (fun _ => false) rfl
    (by norm_num [mcSim, pyRound, Int.fract])

/-- C7: when at least one physical step call of a `move_x` fails, the
command sequence is still the full nominal one (no retry, no rollback, no
early abort: the fallible run maps onto the nominal run event for event,
and all `2 * |steps|` driver calls are issued) and Position is still
updated by the full requested delta. -/
theorem step_failure_continues_unconditionally (mc : MotorController)
    (failAt : ℕ → Bool) (mm : ℚ)
    (hfail : 0 < failedSteps (move_x_f mc failAt mm).2) :
    ((move_x_f mc failAt mm).2).map forgetOutcome = (move_x mc mm).2 ∧
    driverCalls (move_x mc mm).2 =
      2 * (pyRound (mm * mc.steps_per_mm_x)).natAbs ∧
    (move_x_f mc failAt mm).1.position.x = mc.position.x + mm := by
  have hsteps : pyRound (mm * mc.steps_per_mm_x) ≠ 0 := by
    intro h
    simp [move_x_f, h, failedSteps] at hfail
  exact ⟨(move_x_f_agrees mc failAt mm).1, driverCalls_move_x mc mm,
    by simp [move_x_f, hsteps]⟩

theorem step_failure_continues_unconditionally_witness :
    ((move_x_f mcHW (fun _ => true) 1).2).map forgetOutcome =
      (move_x mcHW 1).2 ∧
    driverCalls (move_x mcHW 1).2 =
      2 * (pyRound (1 * mcHW.steps_per_mm_x)).natAbs ∧
    (move_x_f mcHW (fun _ => true) 1).1.position.x = mcHW.position.x + 1 :=
  step_failure_continues_unconditionally mcHW (fun _ => true) 1
    (by simp [move_x_f, mcHW, pyRound_one, failedSteps, isFailedStep,
      step_motor_f, List.range_succ])

/-- C8: `reset_position` (the GUI "Home") always sets Position to `{0,0}`
and issues zero driver calls, whatever the prior Position. -/
theorem reset_position_spec (mc : MotorController) :
    (reset_position mc).1.position = { x := 0, z := 0 } ∧
    (reset_position mc).2 = [] ∧
    driverCalls (reset_position mc).2 = 0 :=
  ⟨rfl, rfl, rfl⟩

/-- C9: when both rounded step counts are zero but some millimeter delta
is not, `move_to` emits no driver call at all yet still reassigns
Position to exactly the target pair. -/
theorem move_to_zero_steps_position_jump (mc : MotorController)
    (x_mm z_mm : ℚ)
    (h1 : pyRound ((x_mm - mc.position.x) * mc.steps_per_mm_x) = 0)
    (h2 : pyRound ((z_mm - mc.position.z) * mc.steps_per_mm_z) = 0)
    (h3 : x_mm ≠ mc.position.x ∨ z_mm ≠ mc.position.z) :
    (move_to mc x_mm z_mm).2 = [] ∧
    (move_to mc x_mm z_mm).1.position = { x := x_mm, z := z_mm } := by
  refine ⟨?_, rfl⟩
  simp [move_to, h1, h2, bresRun]

theorem move_to_zero_steps_position_jump_witness :
    (move_to mcSim (1/4) 0).2 = [] ∧
    (move_to mcSim (1/4) 0).1.position = { x := 1/4, z := 0 } :=
  move_to_zero_steps_position_jump mcSim (1/4) 0
    (by norm_num [mcSim, pyRound, Int.fract])
    (by norm_num [mcSim, pyRound, Int.fract])
    (by norm_num [mcSim])

/-- C10: the Bresenham interleave loop of `move_to` terminates for every
pair of non-negative step counts: seeded with `err = x_steps - z_steps`,
within `x_steps + z_steps` iterations both counters reach their targets
(each iteration fires at least one branch), after which the loop
condition is false. -/
theorem bresenham_loop_terminates (mc : MotorController) (sx sz : Dir)
    (X Z : ℕ) :
    (bresRun mc sx sz X Z (X + Z) ((X : ℤ) - (Z : ℤ)) 0 0).2.2.1 = X ∧
    (bresRun mc sx sz X Z (X + Z) ((X : ℤ) - (Z : ℤ)) 0 0).2.2.2 = Z := by
  have h0 : ((X : ℤ) - (Z : ℤ)) = errInv X Z 0 0 := by simp [errInv]
  rw [h0]
  have hs := bresRun_spec mc sx sz X Z (X + Z) 0 0 (Nat.zero_le _)
    (Nat.zero_le _) (by omega)
  exact ⟨hs.2.2.1, hs.2.2.2⟩

end MotorCtl
